import Mathlib

set_option maxRecDepth 100000

/-!
Verification of the message-formatting core of the BigQueryChat repository
(`src/format_message.py`): the functions `format_message` and
`format_timestamp_label` are embedded shallowly over `List Char`, mirroring
the Python source, including the backtracking semantics of the two regular
expressions the source uses (`re.findall`, `re.split`, `re.sub`).

Modelling conventions:
* Python `str` is modelled as `List Char`; the character classes `\s`, `\w`
  and `str.strip()` are modelled on their ASCII fragment (the repository's
  messages are ASCII; Python additionally treats some further Unicode
  code points as whitespace/word characters).
* `datetime.date` values are modelled by their proleptic Gregorian ordinal
  (`date.toordinal`), which is order-isomorphic to Python date comparison;
  `datetime.now().date()` is an explicit `today` parameter.
* every function is total; "never raises" in the source corresponds to
  totality of the embedding.
-/

namespace BQC

/-- Backtick character (coded to keep the source free of raw backticks). -/
def btick : Char := Char.ofNat 96

/-- Triple backtick, the code-fence delimiter of the regexes in
`format_message.py` lines 32 and 39. -/
def tq : List Char := [btick, btick, btick]

/-- ASCII fragment of Python's whitespace class `\s` and of the default
`str.strip()` character set. -/
def isPySpace (c : Char) : Bool :=
  c = ' ' || c = '\t' || c = '\n' || c = '\r' || c = Char.ofNat 11 || c = Char.ofNat 12

/-- ASCII fragment of Python's word-character class `\w`. -/
def isWordChar (c : Char) : Bool :=
  ('a' ≤ c && c ≤ 'z') || ('A' ≤ c && c ≤ 'Z') || ('0' ≤ c && c ≤ '9') || c = '_'

/-- Python `str.strip()` (no argument): drop whitespace from both ends. -/
def pyStrip (s : List Char) : List Char :=
  ((s.dropWhile isPySpace).reverse.dropWhile isPySpace).reverse

/-- Python `str.split(sep)` for a single-character separator: `""` splits to
`[""]`, separators at the ends produce empty pieces. -/
def pySplitOn (sep : Char) : List Char → List (List Char)
  | [] => [[]]
  | c :: r =>
    if c = sep then [] :: pySplitOn sep r
    else
      match pySplitOn sep r with
      | x :: xs => (c :: x) :: xs
      | [] => [[c]]

/-- Python `str.lower()` on the ASCII fragment. -/
def pyLower (s : List Char) : List Char := s.map Char.toLower

end BQC

namespace BQC

/-! ### Code-fence scanner

`format_message` uses the pattern with three backticks, `(\w+)?`, a newline,
a lazy `(.*?)` under `re.DOTALL`, and a closing three backticks — once with
`re.findall` (line 32) and once with `re.split` (line 39).  A match attempt
at a given position succeeds exactly when the position starts with three
backticks, the maximal word-character run after them is followed by a
newline (shorter runs cannot be, because the next character would be a word
character), and a closing triple backtick occurs later; the lazy `(.*?)`
stops at the nearest closing triple backtick.  `re.findall`/`re.split` scan
left to right, advancing one character after a failed attempt and to the
match end after a successful one. -/

/-- Least index at which the triple backtick occurs (`none` if it does not).
This is where the lazy `(.*?)` of the fence pattern stops. -/
def firstClose : List Char → Option Nat
  | [] => none
  | c :: r =>
    if (c :: r).take 3 = tq then some 0
    else (firstClose r).map (· + 1)

/-- One attempt of the fence pattern at the head of `s`: on success, the
language group (possibly empty), the code group, and the number of
characters consumed by the whole match. -/
def matchCodeAt (s : List Char) : Option (List Char × List Char × Nat) :=
  if s.take 3 = tq then
    let r := s.drop 3
    let w := r.takeWhile isWordChar
    let r2 := r.drop w.length
    if r2.take 1 = ['\n'] then
      let body := r2.drop 1
      match firstClose body with
      | some j => some (w, body.take j, 3 + w.length + 1 + j + 3)
      | none => none
    else none
  else none

/-- The left-to-right scan shared by `re.findall` and `re.split` on the
fence pattern: returns the non-matched segments (between consecutive
matches, in order; always one more segment than matches) and the list of
`(language, code)` group pairs.  `fuel` bounds the recursion; every step
consumes at least one character, so `s.length + 1` is always enough. -/
def codeSplitAux : Nat → List Char → List (List Char) × List (List Char × List Char)
  | 0, s => ([s], [])
  | fuel + 1, s =>
    match matchCodeAt s with
    | some (w, code, k) =>
      let res := codeSplitAux fuel (s.drop k)
      ([] :: res.1, (w, code) :: res.2)
    | none =>
      match s with
      | [] => ([[]], [])
      | c :: r =>
        match codeSplitAux fuel r with
        | (seg :: segs, ms) => ((c :: seg) :: segs, ms)
        | ([], ms) => ([[c]], ms)

/-- `re.split`/`re.findall` driver with adequate fuel. -/
def codeSplit (s : List Char) : List (List Char) × List (List Char × List Char) :=
  codeSplitAux (s.length + 1) s

/-- Decidable absence of a triple backtick anywhere in `s`. -/
def noTq : List Char → Bool
  | [] => true
  | c :: r => !((c :: r).take 3 = tq : Bool) && noTq r

/-! ### Table-pattern matcher

The pattern at line 35 is
`\|\s*(.*?)\s*\|(?:\n\|[-\s|]+\|)?\n((?:\|.*\|(?:\n|$))*)`,
used by `re.findall` without flags (line 36) and by `re.sub` with
`re.DOTALL` (line 53).  The matcher below reproduces the backtracking
search: the first `\s*` is tried longest first, `(.*?)` shortest first,
the second `\s*` longest first, the optional separator group present
before absent (its `[-\s|]+` longest first), and the final starred group
is greedy and, being at the end of the pattern, never backtracks.  The
`dot` flag tells whether `.` matches a newline (`re.DOTALL`). -/

/-- Whether `.` matches `c` (depends on `re.DOTALL`). -/
def dotMatches (dot : Bool) (c : Char) : Bool := dot || c ≠ '\n'

/-- Character class `[-\s|]` of the optional separator-line group. -/
def isSepClass (c : Char) : Bool := c = '-' || isPySpace c || c = '|'

/-- Descending list `[n, n-1, ..., 0]` (greedy-first backtracking order). -/
def downTo : Nat → List Nat
  | 0 => [0]
  | n + 1 => (n + 1) :: downTo n

/-- One iteration of the trailing group `\|.*\|(?:\n|$)`: the number of
characters it consumes at the head of `s`, or `none`.  Without `DOTALL` it
consumes one line that starts and ends with `|` (length at least 2) plus
its newline; with `DOTALL`, `.*` is greedy across newlines, so it consumes
up to the last `|` that is followed by a newline or ends the string. -/
def dStep (dot : Bool) (s : List Char) : Option Nat :=
  match s with
  | '|' :: _ =>
    if dot then
      (downTo s.length).findSome? fun j =>
        if 1 ≤ j && s.get? j = some '|' then
          if s.get? (j + 1) = some '\n' then some (j + 2)
          else if j + 1 = s.length then some (j + 1)
          else none
        else none
    else
      let line := s.takeWhile (fun c => c ≠ '\n')
      if 2 ≤ line.length && line.getLast? = some '|' then
        if s.get? line.length = some '\n' then some (line.length + 1) else some line.length
      else none
  | _ => none

/-- Greedy iteration of `dStep`; returns the total number of characters
consumed (the span of capture group 2).  Each step consumes at least two
characters, so `s.length + 1` fuel is always enough. -/
def dLoopAux : Nat → Bool → List Char → Nat
  | 0, _, _ => 0
  | fuel + 1, dot, s =>
    match dStep dot s with
    | some k => k + dLoopAux fuel dot (s.drop k)
    | none => 0

/-- Continuation of the pattern after `\|\s*(.*?)\s*\|`: the optional
separator group, the mandatory newline, and the greedy starred group.
Returns capture group 2 and the number of characters consumed. -/
def contBCD (dot : Bool) (sD : List Char) : Option (List Char × Nat) :=
  let bOptions : List Nat :=
    match sD with
    | '\n' :: '|' :: sE =>
      let runMax := (sE.takeWhile isSepClass).length
      (downTo runMax).filterMap fun k =>
        if 1 ≤ k && sE.get? k = some '|' then some (2 + k + 1) else none
    | _ => []
  (bOptions ++ [0]).findSome? fun bUsed =>
    match sD.drop bUsed with
    | '\n' :: sG =>
      let n := dLoopAux (sG.length + 1) dot sG
      some (sG.take n, bUsed + 1 + n)
    | _ => none

/-- One attempt of the table pattern at the head of `s`: on success the two
capture groups and the characters consumed, exploring the choice points in
the regex backtracking order. -/
def matchTableAt (dot : Bool) (s : List Char) : Option (List Char × List Char × Nat) :=
  match s with
  | c :: s1 =>
    if c = '|' then
      let wsMax := (s1.takeWhile isPySpace).length
      (downTo wsMax).findSome? fun a =>
        let sA := s1.drop a
        let dotMax := (sA.takeWhile (dotMatches dot)).length
        (List.range (dotMax + 1)).findSome? fun g =>
          let g1 := sA.take g
          let sB := sA.drop g
          let ws2Max := (sB.takeWhile isPySpace).length
          (downTo ws2Max).findSome? fun b =>
            match sB.drop b with
            | '|' :: sD =>
              (contBCD dot sD).map fun (g2, used) => (g1, g2, 1 + a + g + b + 1 + used)
            | _ => none
    else none
  | [] => none

/-- Left-to-right scan of the table pattern (shared by `re.findall` and
`re.sub`): non-matched segments and `(group1, group2)` pairs. -/
def tableSplitAux : Nat → Bool → List Char → List (List Char) × List (List Char × List Char)
  | 0, _, s => ([s], [])
  | fuel + 1, dot, s =>
    match matchTableAt dot s with
    | some (g1, g2, k) =>
      let res := tableSplitAux fuel dot (s.drop k)
      ([] :: res.1, (g1, g2) :: res.2)
    | none =>
      match s with
      | [] => ([[]], [])
      | c :: r =>
        match tableSplitAux fuel dot r with
        | (seg :: segs, ms) => ((c :: seg) :: segs, ms)
        | ([], ms) => ([[c]], ms)

/-- `re.findall(df_pattern, s)` (no flags, line 36). -/
def dfFindall (s : List Char) : List (List Char × List Char) :=
  (tableSplitAux (s.length + 1) false s).2

/-- `re.sub(df_pattern, "", s, flags=re.DOTALL)` (line 53): concatenation
of the non-matched segments. -/
def dfSub (s : List Char) : List Char :=
  (tableSplitAux (s.length + 1) true s).1.flatten

/-! ### Table construction (lines 63-83) -/

/-- A DataFrame as produced by `pd.DataFrame(data, columns=headers)`:
column headers and rows (every row has exactly one cell per header). -/
structure TableBlock where
  headers : List (List Char)
  rows : List (List (List Char))
deriving DecidableEq, Repr

/-- Cell extraction used for the header line and for each row line:
split on `|`, strip each piece, keep the non-empty ones. -/
def splitCells (line : List Char) : List (List Char) :=
  (pySplitOn '|' line).filterMap fun c =>
    let c2 := pyStrip c
    if c2 = [] then none else some c2

/-- Whether every cell of a candidate row starts with a colon — the guard
of the `idx == 0` separator-row skip (vacuously true for a row with no
cells, as Python's `all` on an empty generator). -/
def allColon (cells : List (List Char)) : Bool :=
  cells.all fun c => c.take 1 = [':']

/-- The row loop of lines 68-80: `idx` enumerates the candidate lines; the
candidate at index 0 is skipped when all its cells start with `:`;
otherwise a candidate is kept exactly when its cell count equals the
header count. -/
def buildData (hn : Nat) : Nat → List (List Char) → List (List (List Char))
  | _, [] => []
  | idx, r :: rest =>
    if idx = 0 ∧ allColon (splitCells r) = true then buildData hn (idx + 1) rest
    else if (splitCells r).length = hn then splitCells r :: buildData hn (idx + 1) rest
    else buildData hn (idx + 1) rest

/-- The candidate row lines of a match: `rows.strip().split("\n")`. -/
def candidateRows (rowsStr : List Char) : List (List Char) :=
  pySplitOn '\n' (pyStrip rowsStr)

/-- Processing of one `(header, rows)` match of the table pattern
(lines 63-83): headers from the header group, data rows from the row
group, and a DataFrame only if at least one data row survived. -/
def processMatch (header rowsStr : List Char) : Option TableBlock :=
  if buildData (splitCells header).length 0 (candidateRows rowsStr) = [] then none
  else some ⟨splitCells header, buildData (splitCells header).length 0 (candidateRows rowsStr)⟩

/-- The arity-only filter: the row loop with the index-0 separator skip out
of reach (as it is for every candidate index beyond the first). -/
def arityFilter (hn : Nat) (cs : List (List Char)) : List (List (List Char)) :=
  cs.filterMap fun c =>
    if (splitCells c).length = hn then some (splitCells c) else none

/-! ### Message decomposition (`format_message`, lines 24-98) -/

/-- Result triple of `format_message`: the HTML text channel, the
`(code, language)` snippet list, and the DataFrame list. -/
structure FMResult where
  html : List Char
  codes : List (List Char × List Char)
  tables : List TableBlock
deriving DecidableEq, Repr

/-- The HTML wrapper of lines 55-60 (the f-string, byte for byte). -/
def htmlWrap (t : List Char) : List Char :=
  ("\n                    <div style='background-color: #545353; padding: 10px; border-radius: 10px; max-width: 70%; \n                    text-align: left; color: white; margin-bottom: 10px;'>\n                        ".toList)
  ++ t ++
  ("\n                    </div>\n                    ".toList)

/-- Language normalization of line 90: lowercase the token, or the
`"plaintext"` sentinel when the token is empty (absent). -/
def pyLangOf (lang : List Char) : List Char :=
  if lang = [] then "plaintext".toList else pyLower lang

/-- Interleaving that reconstructs `re.split`'s result from the scan:
`[seg0, code0, seg1, code1, ..., segn]`. -/
def interleaveParts : List (List Char) → List (List Char) → List (List Char)
  | [], _ => []
  | seg :: _, [] => [seg]
  | seg :: segs, m :: ms => seg :: m :: interleaveParts segs ms

/-- Lines 48-60 for one even part: strip the part and, when the stripped
part and then the table-stripped (`re.sub` under `DOTALL`) re-stripped text
are non-empty, append the HTML wrapper around the latter. -/
def fmHtmlStep (html part : List Char) : List Char :=
  if pyStrip part = [] then html
  else if pyStrip (dfSub (pyStrip part)) = [] then html
  else html ++ htmlWrap (pyStrip (dfSub (pyStrip part)))

/-- The `for i, part in enumerate(parts)` loop of lines 47-95.  Even parts
contribute the wrapped non-table text and — unconditionally — one pass over
all whole-message table matches; odd parts consume the next code block. -/
def fmLoop (dfs : List (List Char × List Char)) (cbs : List (List Char × List Char)) :
    List (List Char) → Nat → Nat → List Char → List (List Char × List Char) →
    List TableBlock → FMResult
  | [], _, _, html, snips, tbls => ⟨html, snips, tbls⟩
  | part :: rest, i, ci, html, snips, tbls =>
    if i % 2 = 0 then
      fmLoop dfs cbs rest (i + 1) ci (fmHtmlStep html part) snips
        (tbls ++ dfs.filterMap fun m => processMatch m.1 m.2)
    else
      match cbs.get? ci with
      | some (lang, code) =>
        fmLoop dfs cbs rest (i + 1) (ci + 1) html (snips ++ [(pyStrip code, pyLangOf lang)]) tbls
      | none => fmLoop dfs cbs rest (i + 1) ci html snips tbls

/-- `format_message(message)`: code blocks and the split from the fence
pattern, table matches from the whole-message `re.findall`, then the part
loop. -/
def format_message (msg : List Char) : FMResult :=
  fmLoop (dfFindall msg) (codeSplit msg).2
    (interleaveParts (codeSplit msg).1 ((codeSplit msg).2.map (·.2))) 0 0 [] [] []

/-! ### Specification-side fence regions (for claim C4)

Modelled from the amended wording of the spec's Code Block Extractor
contract: a fenced region starts at three consecutive backticks anywhere
in the text, optionally followed immediately (no space) by a
word-character language token, then a newline; it is closed by the nearest
following three consecutive backticks; regions are taken leftmost first,
and scanning resumes after the closing backticks. -/

/-- Opening-fence shape at the head of `t`: the language token (maximal
word-character run, possibly empty) and the body after the newline. -/
def openParse (t : List Char) : Option (List Char × List Char) :=
  if t.take 3 = tq then
    let r := t.drop 3
    let w := r.takeWhile isWordChar
    if (r.drop w.length).take 1 = ['\n'] then some (w, (r.drop w.length).drop 1) else none
  else none

/-- Leftmost position of an opening fence, with its token and body. -/
def firstOpen : List Char → Option (Nat × List Char × List Char)
  | [] => none
  | c :: r =>
    match openParse (c :: r) with
    | some (w, b) => some (0, w, b)
    | none => (firstOpen r).map fun (i, w, b) => (i + 1, w, b)

/-- The fenced regions of a message per the (amended) specification:
leftmost opening fence, content up to the nearest closing triple backtick,
recursion after the close.  An opening fence with no close yields nothing
further. -/
def specRegionsAux : Nat → List Char → List (List Char × List Char)
  | 0, _ => []
  | fuel + 1, s =>
    match firstOpen s with
    | none => []
    | some (_, w, b) =>
      match firstClose b with
      | none => []
      | some j => (w, b.take j) :: specRegionsAux fuel (b.drop (j + 3))

/-- Fenced regions with adequate fuel. -/
def specFenceRegions (s : List Char) : List (List Char × List Char) :=
  specRegionsAux (s.length + 1) s

/-! ### Row-provenance check (for claim C2, amended)

Modelled from the amended wording: every row of a returned DataFrame is
the cell list of some candidate line of some whole-message table match,
taken at a candidate index `i` such that if `i = 0` then not all of its
cells start with a colon. -/

/-- Decides whether every row of `tb` arises from a candidate line of some
match in `dfs`, at an index whose row the extractor does not skip. -/
def rowsProvenance (dfs : List (List Char × List Char)) (tb : TableBlock) : Bool :=
  tb.rows.all fun r =>
    dfs.any fun m =>
      (List.range (candidateRows m.2).length).any fun i =>
        ((candidateRows m.2).get? i).elim false fun cand =>
          decide (splitCells cand = r ∧ ¬(i = 0 ∧ allColon r = true))

end BQC

namespace BQC

/-! ### Timestamp labeler (`format_timestamp_label`, lines 101-140)

The two `datetime.strptime` calls use the formats `"%Y-%m-%d %H:%M:%S"` and
`"%Y-%m-%d"`.  CPython compiles these formats to the regular expressions
of `Lib/_strptime.py` (`%Y` ↦ `\d\d\d\d`, `%m` ↦ `1[0-2]|0[1-9]|[1-9]`,
`%d` ↦ `3[0-1]|[1-2]\d|0[1-9]|[1-9]| [1-9]`, `%H` ↦ `2[0-3]|[0-1]\d|\d`,
`%M` ↦ `[0-5]\d|\d`, `%S` ↦ `6[0-1]|[0-5]\d|\d`, a literal whitespace ↦
`\s+`), requires the whole string to be consumed, and then calls the
`datetime` constructor, which (for these directives) additionally requires
`1 ≤ year`, `day` at most the length of the month, and `second ≤ 59`
(`ValueError` otherwise, which `format_timestamp_label` catches).  The
alternations are tried left to right with backtracking, which the candidate
lists below reproduce. -/

/-- Result of a successful `datetime.strptime` call: a Python `datetime`. -/
structure PyDateTime where
  year : Nat
  month : Nat
  day : Nat
  hour : Nat
  minute : Nat
  second : Nat
deriving DecidableEq, Repr

/-- Numeric value of a decimal digit character. -/
def digVal (c : Char) : Nat := c.toNat - 48

/-- Directive `%Y`: exactly four decimal digits. -/
def pY : List Char → Option (Nat × List Char)
  | a :: b :: c :: d :: r =>
    if a.isDigit && b.isDigit && c.isDigit && d.isDigit then
      some (1000 * digVal a + 100 * digVal b + 10 * digVal c + digVal d, r)
    else none
  | _ => none

/-- Directive `%m` (`1[0-2]|0[1-9]|[1-9]`): candidate parses in the order
the regex alternation tries them. -/
def pM : List Char → List (Nat × List Char)
  | a :: b :: r =>
    (if a = '1' && ('0' ≤ b && b ≤ '2') then [(10 + digVal b, r)] else []) ++
    (if a = '0' && ('1' ≤ b && b ≤ '9') then [(digVal b, r)] else []) ++
    (if '1' ≤ a && a ≤ '9' then [(digVal a, b :: r)] else [])
  | [a] => if '1' ≤ a && a ≤ '9' then [(digVal a, [])] else []
  | [] => []

/-- Directive `%d` (`3[0-1]|[1-2]\d|0[1-9]|[1-9]| [1-9]`): CPython also
accepts a space-padded day, as its last alternative. -/
def pD : List Char → List (Nat × List Char)
  | a :: b :: r =>
    (if a = '3' && ('0' ≤ b && b ≤ '1') then [(30 + digVal b, r)] else []) ++
    (if ('1' ≤ a && a ≤ '2') && b.isDigit then [(10 * digVal a + digVal b, r)] else []) ++
    (if a = '0' && ('1' ≤ b && b ≤ '9') then [(digVal b, r)] else []) ++
    (if '1' ≤ a && a ≤ '9' then [(digVal a, b :: r)] else []) ++
    (if a = ' ' && ('1' ≤ b && b ≤ '9') then [(digVal b, r)] else [])
  | [a] => if '1' ≤ a && a ≤ '9' then [(digVal a, [])] else []
  | [] => []

/-- Directive `%H` (`2[0-3]|[0-1]\d|\d`). -/
def pH : List Char → List (Nat × List Char)
  | a :: b :: r =>
    (if a = '2' && ('0' ≤ b && b ≤ '3') then [(20 + digVal b, r)] else []) ++
    (if ('0' ≤ a && a ≤ '1') && b.isDigit then [(10 * digVal a + digVal b, r)] else []) ++
    (if a.isDigit then [(digVal a, b :: r)] else [])
  | [a] => if a.isDigit then [(digVal a, [])] else []
  | [] => []

/-- Directive `%M` (`[0-5]\d|\d`). -/
def pMin : List Char → List (Nat × List Char)
  | a :: b :: r =>
    (if ('0' ≤ a && a ≤ '5') && b.isDigit then [(10 * digVal a + digVal b, r)] else []) ++
    (if a.isDigit then [(digVal a, b :: r)] else [])
  | [a] => if a.isDigit then [(digVal a, [])] else []
  | [] => []

/-- Directive `%S` (`6[0-1]|[0-5]\d|\d`). -/
def pSec : List Char → List (Nat × List Char)
  | a :: b :: r =>
    (if a = '6' && ('0' ≤ b && b ≤ '1') then [(60 + digVal b, r)] else []) ++
    (if ('0' ≤ a && a ≤ '5') && b.isDigit then [(10 * digVal a + digVal b, r)] else []) ++
    (if a.isDigit then [(digVal a, b :: r)] else [])
  | [a] => if a.isDigit then [(digVal a, [])] else []
  | [] => []

/-- A literal character of the format string. -/
def pLit (c : Char) : List Char → Option (List Char)
  | a :: r => if a = c then some r else none
  | [] => none

/-- Literal whitespace in the format string becomes `\s+`. -/
def pWs : List Char → Option (List Char)
  | a :: r => if isPySpace a then some (r.dropWhile isPySpace) else none
  | [] => none

/-- Whether `y` is a Gregorian leap year (`calendar.isleap`). -/
def isLeap (y : Nat) : Bool := y % 4 = 0 && (y % 100 ≠ 0 || y % 400 = 0)

/-- Number of days in month `m` of year `y`. -/
def daysInMonth (y m : Nat) : Nat :=
  if m = 2 then (if isLeap y then 29 else 28)
  else if m = 4 || m = 6 || m = 9 || m = 11 then 30
  else 31

/-- Days in the months strictly before month `m` in a non-leap year. -/
def daysBeforeMonth (m : Nat) : Nat :=
  match m with
  | 1 => 0 | 2 => 31 | 3 => 59 | 4 => 90 | 5 => 120 | 6 => 151
  | 7 => 181 | 8 => 212 | 9 => 243 | 10 => 273 | 11 => 304 | _ => 334

/-- Python `date(y, m, d).toordinal()`: proleptic Gregorian ordinal with
`date(1, 1, 1).toordinal() = 1`. -/
def pyToOrdinal (y m d : Nat) : Nat :=
  365 * (y - 1) + (y - 1) / 4 - (y - 1) / 100 + (y - 1) / 400 +
    daysBeforeMonth m + (if 2 < m && isLeap y then 1 else 0) + d

/-- Validation performed by the `datetime` constructor on the fields the two
formats can produce (a `ValueError` in Python, `none` here). -/
def mkPyDateTime (y m d hh mi ss : Nat) : Option PyDateTime :=
  if 1 ≤ y && y ≤ 9999 && 1 ≤ m && m ≤ 12 && 1 ≤ d && d ≤ daysInMonth y m
      && hh ≤ 23 && mi ≤ 59 && ss ≤ 59 then
    some ⟨y, m, d, hh, mi, ss⟩
  else none

/-- `datetime.strptime(s, "%Y-%m-%d %H:%M:%S")`, `none` for `ValueError`. -/
def parseFull (s : List Char) : Option PyDateTime :=
  (pY s).bind fun (y, r1) =>
  (pLit '-' r1).bind fun r2 =>
  (pM r2).findSome? fun (m, r3) =>
  (pLit '-' r3).bind fun r4 =>
  (pD r4).findSome? fun (d, r5) =>
  (pWs r5).bind fun r6 =>
  (pH r6).findSome? fun (hh, r7) =>
  (pLit ':' r7).bind fun r8 =>
  (pMin r8).findSome? fun (mi, r9) =>
  (pLit ':' r9).bind fun r10 =>
  (pSec r10).findSome? fun (ss, r11) =>
  if r11 = [] then mkPyDateTime y m d hh mi ss else none

/-- `datetime.strptime(s, "%Y-%m-%d")`, `none` for `ValueError`. -/
def parseDateOnly (s : List Char) : Option PyDateTime :=
  (pY s).bind fun (y, r1) =>
  (pLit '-' r1).bind fun r2 =>
  (pM r2).findSome? fun (m, r3) =>
  (pLit '-' r3).bind fun r4 =>
  (pD r4).findSome? fun (d, r5) =>
  if r5 = [] then mkPyDateTime y m d 0 0 0 else none

/-- The string-parsing cascade of `format_timestamp_label` lines 110-121:
full datetime format first, then date-only format. -/
def parseTs (s : List Char) : Option PyDateTime :=
  match parseFull s with
  | some dt => some dt
  | none => parseDateOnly s

/-- Ordinal of `timestamp.date()`. -/
def dateOrd (dt : PyDateTime) : Int := (pyToOrdinal dt.year dt.month dt.day : Int)

/-- Zero-padded two-digit decimal rendering (`strftime` `%m`, `%d`). -/
def pad2 (n : Nat) : String := if n < 10 then "0" ++ toString n else toString n

/-- Four-digit decimal rendering of the year (`strftime` `%Y` as produced
for the four-digit years `%Y` can parse). -/
def pad4 (n : Nat) : String :=
  if n < 10 then "000" ++ toString n
  else if n < 100 then "00" ++ toString n
  else if n < 1000 then "0" ++ toString n
  else toString n

/-- `timestamp.strftime("%Y-%m-%d")`. -/
def isoOf (dt : PyDateTime) : String :=
  pad4 dt.year ++ "-" ++ pad2 dt.month ++ "-" ++ pad2 dt.day

/-- The recency bucketing of `format_timestamp_label` lines 128-140, with
`today = datetime.now().date()` passed as an ordinal. -/
def bucketLabel (dt : PyDateTime) (today : Int) : String :=
  let d := dateOrd dt
  if d = today then "Today"
  else if d = today - 1 then "Yesterday"
  else if today - 7 ≤ d ∧ d < today - 1 then "Previous 7 days"
  else if today - 30 ≤ d ∧ d < today - 7 then "Previous 30 days"
  else isoOf dt

/-- Input of `format_timestamp_label`: a string, an already constructed
`datetime`, or any other Python value (`other`). -/
inductive TsInput where
  | str (s : List Char)
  | dt (d : PyDateTime)
  | other

/-- `format_timestamp_label(timestamp)` with the ambient current date passed
explicitly.  A string input is parsed (full format, then date-only format,
else the sentinel); a non-`datetime`, non-`str` input yields the sentinel. -/
def format_timestamp_label (t : TsInput) (today : Int) : String :=
  match t with
  | .str s =>
    match parseTs s with
    | some dt => bucketLabel dt today
    | none => "Invalid timestamp"
  | .dt d => bucketLabel d today
  | .other => "Invalid timestamp"

end BQC

namespace BQC

/-! ### Concrete example inputs used by witnesses and counterexamples -/

/-- A minimal well-formed Markdown table message. -/
def exMsgTable : List Char := "|A|B|\n|-|-|\n|1|2|\n".toList

/-- The TableBlock extracted from `exMsgTable`. -/
def exTable : TableBlock := ⟨[['A'], ['B']], [[['1'], ['2']]]⟩

/-- A message with one code fence followed by one table. -/
def exMsgDup : List Char := "```a\nx\n```\n|A|B|\n|-|-|\n|1|2|\n".toList

/-- A message whose table has a colon-alignment row after the first data
row. -/
def exMsgColon : List Char := "|A|B|\n|1|2|\n|:-|:-|\n|3|4|\n".toList

/-- The TableBlock extracted from `exMsgColon`: the alignment row survives
into `rows`. -/
def exTableColon : TableBlock :=
  ⟨[['A'], ['B']], [[['1'], ['2']], [[':', '-'], [':', '-']], [['3'], ['4']]]⟩

/-- A message whose table match has an empty header group and a zero-cell
surviving candidate row. -/
def exMsgNoHead : List Char := "||\n|x|\n||\n".toList

/-- The TableBlock extracted from `exMsgNoHead`: no headers, one empty
row. -/
def exTableNoHead : TableBlock := ⟨[], [[]]⟩

/-- A message whose fence opens mid-line (no line starts with three
backticks besides the lone closer). -/
def exMsgInlineFence : List Char := "foo ```python\nprint(1)\n```".toList

end BQC

namespace BQC

/-! ## Theorems -/

/-- Helper: the recency bucketing unfolded once a parse succeeded. -/
theorem format_timestamp_label_str_parsed (s : List Char) (dt : PyDateTime) (today : Int)
    (h : parseTs s = some dt) :
    format_timestamp_label (.str s) today = bucketLabel dt today := by
  simp only [format_timestamp_label]
  rw [h]

/-- Claim C5: for every parseable timestamp, `format_timestamp_label`
buckets by calendar-date comparison with exact half-open boundaries:
equal to `today` gives `"Today"`, exactly one day ago `"Yesterday"`,
from exactly 7 days ago up to but excluding 1 day ago `"Previous 7 days"`,
from exactly 30 days ago up to but excluding 7 days ago
`"Previous 30 days"` (so exactly 8 days ago is `"Previous 30 days"`),
and anything older gives that date's ISO `"YYYY-MM-DD"` string. -/
theorem c5_buckets (s : List Char) (dt : PyDateTime) (today : Int)
    (h : parseTs s = some dt) :
    (dateOrd dt = today → format_timestamp_label (.str s) today = "Today") ∧
    (dateOrd dt = today - 1 → format_timestamp_label (.str s) today = "Yesterday") ∧
    (today - 7 ≤ dateOrd dt ∧ dateOrd dt < today - 1 →
      format_timestamp_label (.str s) today = "Previous 7 days") ∧
    (today - 30 ≤ dateOrd dt ∧ dateOrd dt < today - 7 →
      format_timestamp_label (.str s) today = "Previous 30 days") ∧
    (dateOrd dt < today - 30 → format_timestamp_label (.str s) today = isoOf dt) := by
  rw [format_timestamp_label_str_parsed s dt today h]
  simp only [bucketLabel]
  refine ⟨fun hd => ?_, fun hd => ?_, fun hd => ?_, fun hd => ?_, fun hd => ?_⟩ <;>
    split_ifs with h1 h2 h3 h4 <;> first | rfl | omega

/-- Witness for C5 at concrete inputs: today, exactly 7 days ago, and
exactly 8 days ago (with `today = 2024-05-05`). -/
theorem c5_buckets_witness :
    format_timestamp_label (.str "2024-05-05 01:02:03".toList) ((pyToOrdinal 2024 5 5 : Int))
        = "Today" ∧
    format_timestamp_label (.str "2024-04-28".toList) ((pyToOrdinal 2024 5 5 : Int))
        = "Previous 7 days" ∧
    format_timestamp_label (.str "2024-04-27".toList) ((pyToOrdinal 2024 5 5 : Int))
        = "Previous 30 days" :=
  ⟨(c5_buckets "2024-05-05 01:02:03".toList ⟨2024, 5, 5, 1, 2, 3⟩ _ (by decide)).1 (by decide),
   (c5_buckets "2024-04-28".toList ⟨2024, 4, 28, 0, 0, 0⟩ _ (by decide)).2.2.1
     ⟨by decide, by decide⟩,
   (c5_buckets "2024-04-27".toList ⟨2024, 4, 27, 0, 0, 0⟩ _ (by decide)).2.2.2.1
     ⟨by decide, by decide⟩⟩

/-- Claim C8: a string that parses under neither the full datetime format
nor the date-only format yields the sentinel `"Invalid timestamp"`, and so
does an input that is not a recognized timestamp representation at all;
the function is total, so it never raises. -/
theorem c8_invalid (s : List Char) (today : Int)
    (h1 : parseFull s = none) (h2 : parseDateOnly s = none) :
    format_timestamp_label (.str s) today = "Invalid timestamp" ∧
    format_timestamp_label .other today = "Invalid timestamp" := by
  constructor
  · simp only [format_timestamp_label, parseTs]
    rw [h1, h2]
  · rfl

/-- Witness for C8 at the concrete input `"not-a-date"`. -/
theorem c8_invalid_witness :
    format_timestamp_label (.str "not-a-date".toList) 739011 = "Invalid timestamp" :=
  (c8_invalid "not-a-date".toList 739011 (by decide) (by decide)).1

end BQC

namespace BQC

/-! ### Lemmas about the row loop and the part loop -/

/-- Every row the row loop keeps has exactly `hn` cells. -/
theorem mem_buildData_length {hn : Nat} :
    ∀ (cs : List (List Char)) (idx : Nat) (row : List (List Char)),
      row ∈ buildData hn idx cs → row.length = hn := by
  intro cs
  induction cs with
  | nil => intro idx row h; simp [buildData] at h
  | cons c rest ih =>
    intro idx row h
    simp only [buildData] at h
    split at h
    · exact ih _ _ h
    · split at h
      · next hlen =>
        rcases List.mem_cons.mp h with h1 | h1
        · subst h1; exact hlen
        · exact ih _ _ h1
      · exact ih _ _ h

/-- Every kept row is the cell list of a candidate at some index `k`, and
a kept row at absolute candidate index `0` is not an all-colon row. -/
theorem mem_buildData_provenance {hn : Nat} :
    ∀ (cs : List (List Char)) (idx : Nat) (row : List (List Char)),
      row ∈ buildData hn idx cs →
      ∃ k c, cs.get? k = some c ∧ splitCells c = row ∧ ¬(idx + k = 0 ∧ allColon row = true) := by
  intro cs
  induction cs with
  | nil => intro idx row h; simp [buildData] at h
  | cons c rest ih =>
    intro idx row h
    simp only [buildData] at h
    split at h
    · obtain ⟨k, c2, hg, hs, hn2⟩ := ih _ _ h
      exact ⟨k + 1, c2, hg, hs, by omega⟩
    · next hskip =>
      split at h
      · rcases List.mem_cons.mp h with h1 | h1
        · subst h1
          refine ⟨0, c, rfl, rfl, ?_⟩
          intro ⟨hz, hcol⟩
          exact hskip ⟨by omega, hcol⟩
        · obtain ⟨k, c2, hg, hs, hn2⟩ := ih _ _ h1
          exact ⟨k + 1, c2, hg, hs, by omega⟩
      · obtain ⟨k, c2, hg, hs, hn2⟩ := ih _ _ h
        exact ⟨k + 1, c2, hg, hs, by omega⟩

/-- For candidate indices beyond the first, the row loop is exactly the
arity filter (the separator skip is only reachable at index 0). -/
theorem buildData_pos_eq_arityFilter {hn : Nat} :
    ∀ (cs : List (List Char)) (idx : Nat), idx ≠ 0 →
      buildData hn idx cs = arityFilter hn cs := by
  intro cs
  induction cs with
  | nil => intro idx h; simp [buildData, arityFilter]
  | cons c rest ih =>
    intro idx h
    simp only [buildData]
    rw [if_neg (fun hc => h hc.1), ih _ (Nat.succ_ne_zero idx)]
    by_cases hlen : (splitCells c).length = hn
    · simp [arityFilter, List.filterMap_cons, hlen]
    · simp [arityFilter, List.filterMap_cons, hlen]

/-- Characterization of a successful `processMatch`. -/
theorem processMatch_eq_some {h r : List Char} {tb : TableBlock}
    (hp : processMatch h r = some tb) :
    tb.headers = splitCells h ∧
    tb.rows = buildData (splitCells h).length 0 (candidateRows r) ∧ tb.rows ≠ [] := by
  unfold processMatch at hp
  split at hp
  · exact absurd hp (by simp)
  · next hne =>
    injection hp with hp2
    subst hp2
    exact ⟨rfl, rfl, hne⟩

/-- Every table in the loop's output is either an input table or arises
from a whole-message match. -/
theorem fmLoop_tables_mem (dfs cbs : List (List Char × List Char)) :
    ∀ (parts : List (List Char)) (i ci : Nat) (html : List Char)
      (snips : List (List Char × List Char)) (tbls : List TableBlock) (tb : TableBlock),
      tb ∈ (fmLoop dfs cbs parts i ci html snips tbls).tables →
      tb ∈ tbls ∨ tb ∈ dfs.filterMap fun m => processMatch m.1 m.2 := by
  intro parts
  induction parts with
  | nil => intro i ci html snips tbls tb h; exact Or.inl h
  | cons part rest ih =>
    intro i ci html snips tbls tb h
    simp only [fmLoop] at h
    split at h
    · rcases ih _ _ _ _ _ _ h with h1 | h1
      · rcases List.mem_append.mp h1 with h2 | h2
        · exact Or.inl h2
        · exact Or.inr h2
      · exact Or.inr h1
    · split at h
      · exact ih _ _ _ _ _ _ h
      · exact ih _ _ _ _ _ _ h

/-- Every table returned by `format_message` arises from one of the
whole-message table matches. -/
theorem format_message_tables_mem {msg : List Char} {tb : TableBlock}
    (h : tb ∈ (format_message msg).tables) :
    ∃ m, m ∈ dfFindall msg ∧ processMatch m.1 m.2 = some tb := by
  unfold format_message at h
  rcases fmLoop_tables_mem _ _ _ _ _ _ _ _ _ h with h1 | h1
  · exact absurd h1 (List.not_mem_nil tb)
  · exact List.mem_filterMap.mp h1

end BQC

namespace BQC


/-- Claim C6: every returned TableBlock has at least one row (a table whose
candidate rows are all dropped is not emitted at all), and every row's cell
count equals the header count (mismatched candidate rows are dropped
silently, with no error and no partial row). -/
theorem c6_row_arity (msg : List Char) (tb : TableBlock)
    (h : tb ∈ (format_message msg).tables) :
    tb.rows ≠ [] ∧ tb.rows.all (fun row => decide (row.length = tb.headers.length)) = true := by
  obtain ⟨m, _, hp⟩ := format_message_tables_mem h
  obtain ⟨hh, hr, hne⟩ := processMatch_eq_some hp
  refine ⟨hne, ?_⟩
  rw [List.all_eq_true]
  intro row hrow
  simp only [decide_eq_true_eq]
  rw [hr] at hrow
  rw [hh]
  exact mem_buildData_length _ _ _ hrow

/-- Witness for C6 at a concrete message with one table. -/
theorem c6_row_arity_witness :
    exTable.rows ≠ [] ∧
    exTable.rows.all (fun row => decide (row.length = exTable.headers.length)) = true :=
  c6_row_arity exMsgTable exTable (by decide)

/-- Counterexample to claim C2 as stated: at `exMsgColon`, the returned
TableBlock's `rows` contain the row `[":-", ":-"]`, a Markdown alignment
row all of whose cells start with `:`. -/
theorem c2_cex :
    (format_message exMsgColon).tables = [exTableColon] ∧
    [[':', '-'], [':', '-']] ∈ exTableColon.rows ∧
    allColon [[':', '-'], [':', '-']] = true := by decide

/-- Claim C2, amended: an alignment/separator row can appear in `rows`;
what holds is row provenance — every row of a returned TableBlock is the
cell list of a candidate line of some whole-message table match, taken at a
candidate index `i` such that if `i = 0` then not all of its cells start
with a colon.  (So only a colon-alignment row in first-candidate position
is guaranteed absent.) -/
theorem c2_amended_provenance (msg : List Char) (tb : TableBlock)
    (h : tb ∈ (format_message msg).tables) :
    rowsProvenance (dfFindall msg) tb = true := by
  obtain ⟨m, hm, hp⟩ := format_message_tables_mem h
  obtain ⟨hh, hr, _⟩ := processMatch_eq_some hp
  unfold rowsProvenance
  rw [List.all_eq_true]
  intro row hrow
  rw [hr] at hrow
  obtain ⟨k, c, hg, hs, hnot⟩ := mem_buildData_provenance _ _ _ hrow
  rw [List.any_eq_true]
  refine ⟨m, hm, ?_⟩
  rw [List.any_eq_true]
  refine ⟨k, ?_, ?_⟩
  · rw [List.mem_range]
    exact (List.get?_eq_some.mp hg).1
  · rw [hg]
    exact decide_eq_true ⟨hs, fun hc => hnot ⟨by rw [Nat.zero_add]; exact hc.1, hc.2⟩⟩

/-- Witness for the amended C2 at a concrete message and table. -/
theorem c2_amended_provenance_witness :
    rowsProvenance (dfFindall exMsgColon) exTableColon = true :=
  c2_amended_provenance exMsgColon exTableColon (by decide)

/-- Counterexample to claim C3 as stated: at `exMsgNoHead`, a TableBlock
whose header sequence has zero non-empty cells is returned (its sole row
is the empty cell list). -/
theorem c3_cex :
    exTableNoHead ∈ (format_message exMsgNoHead).tables ∧
    exTableNoHead.headers = [] := by decide

/-- Claim C3, amended: a candidate table with an empty header list is not
always discarded — it is returned exactly when some surviving candidate
row also has zero non-empty cells, in which case the TableBlock has a
non-empty row list all of whose rows are empty. -/
theorem c3_amended_zero_header (msg : List Char) (tb : TableBlock)
    (h : tb ∈ (format_message msg).tables) (hh : tb.headers = []) :
    tb.rows ≠ [] ∧ tb.rows.all (fun row => decide (row = [])) = true := by
  obtain ⟨m, _, hp⟩ := format_message_tables_mem h
  obtain ⟨hh2, hr, hne⟩ := processMatch_eq_some hp
  refine ⟨hne, ?_⟩
  rw [List.all_eq_true]
  intro row hrow
  simp only [decide_eq_true_eq]
  rw [hr] at hrow
  have hlen := mem_buildData_length _ _ _ hrow
  rw [← hh2, hh] at hlen
  exact List.length_eq_zero.mp hlen

/-- Witness for the amended C3 at the concrete zero-header message. -/
theorem c3_amended_zero_header_witness :
    exTableNoHead.rows ≠ [] ∧
    exTableNoHead.rows.all (fun row => decide (row = [])) = true :=
  c3_amended_zero_header exMsgNoHead exTableNoHead (by decide) (by decide)

/-- Claim C10: when the first candidate line of a table match has all of
its cells starting with `:` (including cells with real content after the
colon, and vacuously a candidate with zero cells), the row loop skips it
entirely: the match's data rows are exactly the arity filter of the
remaining candidates, so such a first row never contributes a data row. -/
theorem c10_first_row_skip (header rowsStr : List Char) (c0 : List Char)
    (rest : List (List Char)) (hc : candidateRows rowsStr = c0 :: rest)
    (hcolon : allColon (splitCells c0) = true) :
    processMatch header rowsStr =
      if arityFilter (splitCells header).length rest = [] then none
      else some ⟨splitCells header, arityFilter (splitCells header).length rest⟩ := by
  have hb : buildData (splitCells header).length 0 (candidateRows rowsStr) =
      arityFilter (splitCells header).length rest := by
    rw [hc]
    simp only [buildData]
    rw [if_pos (by simp [hcolon])]
    exact buildData_pos_eq_arityFilter _ _ (by omega)
  unfold processMatch
  rw [hb]

/-- Witness for C10: a first candidate row `|:alpha|:beta|` with real
content after the colons is skipped; the remaining candidate supplies the
only data row. -/
theorem c10_first_row_skip_witness :
    processMatch "A|B".toList "|:alpha|:beta|\n|1|2|".toList =
      some ⟨[['A'], ['B']], [[['1'], ['2']]]⟩ :=
  (c10_first_row_skip "A|B".toList "|:alpha|:beta|\n|1|2|".toList
    "|:alpha|:beta|".toList ["|1|2|".toList] (by decide) (by decide)).trans (by decide)

/-- Claim C1 (code bug): on `exMsgDup` the whole-message scan finds exactly
one table region, but `format_message` returns that TableBlock twice — the
match list is appended once per prose segment of the fence split instead
of once per message. -/
theorem c1_dup_eval :
    (dfFindall exMsgDup).length = 1 ∧
    (format_message exMsgDup).tables = [exTable, exTable] := by decide

end BQC

namespace BQC

/-! ### Lemmas for prose-only messages (claim C9) -/

/-- `dropWhile` is idempotent. -/
theorem dropWhile_dropWhile (p : Char → Bool) :
    ∀ l : List Char, (l.dropWhile p).dropWhile p = l.dropWhile p := by
  intro l
  induction l with
  | nil => rfl
  | cons c r ih =>
    by_cases h : p c = true
    · simp only [List.dropWhile_cons, if_pos h]; exact ih
    · simp only [List.dropWhile_cons, if_neg h]

/-- The head surviving a `dropWhile` does not satisfy the predicate. -/
theorem head?_dropWhile_false (p : Char → Bool) :
    ∀ (l : List Char) (a : Char), (l.dropWhile p).head? = some a → p a = false := by
  intro l
  induction l with
  | nil => intro a h; simp at h
  | cons c r ih =>
    intro a h
    rw [List.dropWhile_cons] at h
    split at h
    · exact ih a h
    · next hc =>
      simp only [List.head?_cons, Option.some.injEq] at h
      subst h
      exact Bool.eq_false_iff.mpr hc

/-- A stripped string does not start with whitespace. -/
theorem pyStrip_dropWhile (s : List Char) :
    (pyStrip s).dropWhile isPySpace = pyStrip s := by
  cases ht : pyStrip s with
  | nil => rfl
  | cons a t2 =>
    have h1 : (pyStrip s).head? = some a := by rw [ht]; rfl
    unfold pyStrip at h1
    rw [List.head?_reverse] at h1
    have hv : (s.dropWhile isPySpace).reverse.dropWhile isPySpace ≠ [] := by
      intro hvnil
      rw [pyStrip, hvnil] at ht
      simp at ht
    obtain ⟨pre, hpre⟩ := List.dropWhile_suffix (l := (s.dropWhile isPySpace).reverse) isPySpace
    have h2 : ((s.dropWhile isPySpace).reverse).getLast? = some a := by
      rw [← hpre, List.getLast?_append_of_ne_nil _ hv]
      exact h1
    rw [List.getLast?_reverse] at h2
    have h3 := head?_dropWhile_false isPySpace s a h2
    rw [List.dropWhile_cons, if_neg (by simp [h3])]

/-- Python `strip` is idempotent. -/
theorem pyStrip_idem (s : List Char) : pyStrip (pyStrip s) = pyStrip s := by
  show (((pyStrip s).dropWhile isPySpace).reverse.dropWhile isPySpace).reverse = pyStrip s
  rw [pyStrip_dropWhile s]
  show ((((s.dropWhile isPySpace).reverse.dropWhile isPySpace).reverse).reverse.dropWhile
    isPySpace).reverse = pyStrip s
  rw [List.reverse_reverse, dropWhile_dropWhile]
  rfl

/-- Characters of a stripped string are characters of the string. -/
theorem mem_of_mem_pyStrip {s : List Char} {a : Char} (h : a ∈ pyStrip s) : a ∈ s := by
  unfold pyStrip at h
  rw [List.mem_reverse] at h
  have h2 := (List.dropWhile_suffix isPySpace).subset h
  rw [List.mem_reverse] at h2
  exact (List.dropWhile_suffix isPySpace).subset h2

/-- Unfolding `noTq` on a cons cell. -/
theorem noTq_cons {c : Char} {r : List Char} (h : noTq (c :: r) = true) :
    (c :: r).take 3 ≠ tq ∧ noTq r = true := by
  unfold noTq at h
  rw [Bool.and_eq_true] at h
  refine ⟨?_, h.2⟩
  intro he
  have h1 := h.1
  simp [he] at h1

/-- No triple backtick anywhere means the fence pattern cannot match. -/
theorem matchCodeAt_none_of_noTq : ∀ {s : List Char}, noTq s = true → matchCodeAt s = none := by
  intro s h
  cases s with
  | nil => rfl
  | cons c r =>
    unfold matchCodeAt
    rw [if_neg (noTq_cons h).1]

/-- Without a triple backtick, the fence scan returns the whole message as
the only segment and no matches. -/
theorem codeSplitAux_of_noTq : ∀ (fuel : Nat) {s : List Char}, noTq s = true →
    codeSplitAux fuel s = ([s], []) := by
  intro fuel
  induction fuel with
  | zero => intro s _; rfl
  | succ f ih =>
    intro s h
    cases s with
    | nil => rfl
    | cons c r =>
      have hm := matchCodeAt_none_of_noTq h
      have hr := (noTq_cons h).2
      simp only [codeSplitAux, hm, ih hr]

/-- Without a pipe character, the table pattern cannot match. -/
theorem matchTableAt_none_of_no_pipe {dot : Bool} {s : List Char} (h : '|' ∉ s) :
    matchTableAt dot s = none := by
  cases s with
  | nil => rfl
  | cons c r =>
    simp only [matchTableAt]
    rw [if_neg (fun hcc => h (by simp [hcc]))]

/-- Without a pipe character, the table scan returns the whole message as
the only segment and no matches. -/
theorem tableSplitAux_of_no_pipe : ∀ (fuel : Nat) {dot : Bool} {s : List Char}, '|' ∉ s →
    tableSplitAux fuel dot s = ([s], []) := by
  intro fuel
  induction fuel with
  | zero => intro dot s _; rfl
  | succ f ih =>
    intro dot s h
    cases s with
    | nil => rfl
    | cons c r =>
      have hm := @matchTableAt_none_of_no_pipe dot _ h
      have hr : '|' ∉ r := fun hmem => h (List.mem_cons_of_mem c hmem)
      simp only [tableSplitAux, hm, ih hr]

/-- `re.findall` of the table pattern finds nothing in pipe-free text. -/
theorem dfFindall_nil_of_no_pipe {s : List Char} (h : '|' ∉ s) : dfFindall s = [] := by
  unfold dfFindall
  rw [tableSplitAux_of_no_pipe _ h]

/-- `re.sub` of the table pattern is the identity on pipe-free text. -/
theorem dfSub_id_of_no_pipe {s : List Char} (h : '|' ∉ s) : dfSub s = s := by
  unfold dfSub
  rw [tableSplitAux_of_no_pipe _ h]
  simp

/-- Claim C9: a prose-only message (no triple backtick, no pipe character)
decomposes into the trimmed input in the text channel (wrapped by the
collaborator-level HTML wrapper, and empty when the trim is empty) with
empty code and table sequences.  The embedding is a total function, so
`format_message` never raises on any text input. -/
theorem c9_prose_only (msg : List Char) (h1 : noTq msg = true) (h2 : '|' ∉ msg) :
    format_message msg =
      ⟨if pyStrip msg = [] then [] else htmlWrap (pyStrip msg), [], []⟩ := by
  have hcs : codeSplit msg = ([msg], []) := codeSplitAux_of_noTq _ h1
  have hdf : dfFindall msg = [] := dfFindall_nil_of_no_pipe h2
  have hp2 : '|' ∉ pyStrip msg := fun hm => h2 (mem_of_mem_pyStrip hm)
  unfold format_message
  rw [hcs, hdf]
  show (⟨fmHtmlStep [] msg, [], []⟩ : FMResult) = _
  unfold fmHtmlStep
  rw [dfSub_id_of_no_pipe hp2, pyStrip_idem]
  by_cases hps : pyStrip msg = []
  · simp [hps]
  · simp [hps]

/-- Witness for C9 at the concrete prose message `"  hi there  "`. -/
theorem c9_prose_only_witness :
    noTq "  hi there  ".toList = true ∧ '|' ∉ "  hi there  ".toList ∧
    format_message "  hi there  ".toList =
      ⟨htmlWrap "hi there".toList, [], []⟩ := by
  refine ⟨by decide, by decide, ?_⟩
  rw [c9_prose_only "  hi there  ".toList (by decide) (by decide)]
  decide

end BQC

namespace BQC

/-! ### The snippet channel (claim C7) -/

/-- The fence scan always produces one more segment than matches. -/
theorem codeSplitAux_segs_length :
    ∀ (fuel : Nat) (s : List Char),
      (codeSplitAux fuel s).1.length = (codeSplitAux fuel s).2.length + 1 := by
  intro fuel
  induction fuel with
  | zero => intro s; rfl
  | succ f ih =>
    intro s
    cases hm : matchCodeAt s with
    | some t =>
      obtain ⟨w, code, k⟩ := t
      simp only [codeSplitAux, hm, List.length_cons]
      exact congrArg Nat.succ (ih (s.drop k))
    | none =>
      cases s with
      | nil => rfl
      | cons c r =>
        have h1 := ih r
        simp only [codeSplitAux, hm]
        cases hres : codeSplitAux f r with
        | mk segs ms =>
          rw [hres] at h1
          cases segs with
          | nil => simp at h1
          | cons seg rest => simpa using h1

/-- The part loop over an interleaving of segments and code groups pairs
the odd parts positionally with the code-block list: the snippet channel
is the accumulated snippets followed by the formatted remaining code
blocks. -/
theorem fmLoop_codes (dfs cbs : List (List Char × List Char)) :
    ∀ (ms : List (List Char)) (segs : List (List Char)) (i ci : Nat) (html : List Char)
      (snips : List (List Char × List Char)) (tbls : List TableBlock),
      i % 2 = 0 → ms = (cbs.drop ci).map (·.2) → segs.length = ms.length + 1 →
      (fmLoop dfs cbs (interleaveParts segs ms) i ci html snips tbls).codes =
        snips ++ (cbs.drop ci).map fun m => (pyStrip m.2, pyLangOf m.1) := by
  intro ms
  induction ms with
  | nil =>
    intro segs i ci html snips tbls hi hms hlen
    have hdrop : cbs.drop ci = [] := List.map_eq_nil.mp hms.symm
    rw [hdrop]
    cases segs with
    | nil => simp at hlen
    | cons seg rest =>
      cases rest with
      | cons x xs => simp at hlen
      | nil =>
        show (fmLoop dfs cbs [seg] i ci html snips tbls).codes = snips ++ []
        rw [fmLoop, if_pos hi, fmLoop]
        simp
  | cons m ms2 ih =>
    intro segs i ci html snips tbls hi hms hlen
    cases hdrop : cbs.drop ci with
    | nil => rw [hdrop] at hms; simp at hms
    | cons cb rest2 =>
      rw [hdrop] at hms
      simp only [List.map_cons, List.cons.injEq] at hms
      obtain ⟨hm1, hms2⟩ := hms
      cases segs with
      | nil => simp at hlen
      | cons seg rest =>
        cases rest with
        | nil => simp at hlen
        | cons seg2 rest3 =>
          have hget : cbs.get? ci = some cb := by
            have := List.get?_drop cbs ci 0
            rw [hdrop] at this
            simpa using this.symm
          have hdrop2 : cbs.drop (ci + 1) = rest2 := by
            have := List.drop_drop 1 ci cbs
            rw [hdrop] at this
            simpa using this.symm
          show (fmLoop dfs cbs (seg :: m :: interleaveParts (seg2 :: rest3) ms2)
              i ci html snips tbls).codes = _
          rw [fmLoop, if_pos hi, fmLoop, if_neg (by omega), hget]
          show (fmLoop dfs cbs (interleaveParts (seg2 :: rest3) ms2) (i + 1 + 1) (ci + 1)
              (fmHtmlStep html seg) (snips ++ [(pyStrip cb.2, pyLangOf cb.1)])
              (tbls ++ dfs.filterMap fun mm => processMatch mm.1 mm.2)).codes = _
          have ih2 := ih (seg2 :: rest3) (i + 1 + 1) (ci + 1) (fmHtmlStep html seg)
            (snips ++ [(pyStrip cb.2, pyLangOf cb.1)])
            (tbls ++ dfs.filterMap fun mm => processMatch mm.1 mm.2)
            (by omega) (by rw [hdrop2]; exact hms2) (by simpa using hlen)
          rw [ih2, hdrop2]
          simp

/-- The snippet channel of `format_message` is the formatted image of the
`re.findall` code-block list, in source order. -/
theorem format_message_codes (msg : List Char) :
    (format_message msg).codes =
      (codeSplit msg).2.map fun m => (pyStrip m.2, pyLangOf m.1) := by
  unfold format_message
  have h := fmLoop_codes (dfFindall msg) (codeSplit msg).2
    ((codeSplit msg).2.map (·.2)) (codeSplit msg).1 0 0 [] [] []
    (by omega) (by rw [List.drop_zero]) (by rw [List.length_map]; exact codeSplitAux_segs_length _ msg)
  rw [List.drop_zero] at h
  exact h

/-- Claim C7: every extracted snippet's language is the lowercase form of
its fence's language token when present, and the `"plaintext"` sentinel
when absent; snippets pair positionally with the fenced regions in source
order. -/
theorem c7_languages (msg : List Char) :
    (format_message msg).codes =
      (codeSplit msg).2.map fun m =>
        (pyStrip m.2, if m.1 = [] then "plaintext".toList else pyLower m.1) :=
  format_message_codes msg

end BQC

namespace BQC

/-! ### Fence regions: the scan matches the specification (claim C4) -/

/-- Dropping as many elements as `takeWhile` keeps is `dropWhile`. -/
theorem drop_length_takeWhile (p : Char → Bool) :
    ∀ l : List Char, l.drop (l.takeWhile p).length = l.dropWhile p := by
  intro l
  induction l with
  | nil => rfl
  | cons c r ih =>
    by_cases h : p c = true <;>
      simp [List.takeWhile_cons, List.dropWhile_cons, h, ih]

/-- Taking as many elements as `takeWhile` keeps is `takeWhile`. -/
theorem take_length_takeWhile (p : Char → Bool) :
    ∀ l : List Char, l.take (l.takeWhile p).length = l.takeWhile p := by
  intro l
  induction l with
  | nil => rfl
  | cons c r ih =>
    by_cases h : p c = true <;> simp [List.takeWhile_cons, h, ih]

/-- A successful `openParse` exposes the opening-fence structure. -/
theorem openParse_some {s w b : List Char} (h : openParse s = some (w, b)) :
    s = tq ++ (w ++ '\n' :: b) ∧ w.all isWordChar = true := by
  unfold openParse at h
  by_cases h1 : s.take 3 = tq
  · rw [if_pos h1] at h
    by_cases h2 : ((s.drop 3).drop ((s.drop 3).takeWhile isWordChar).length).take 1 = ['\n']
    · rw [if_pos h2] at h
      simp only [Option.some.injEq, Prod.mk.injEq] at h
      obtain ⟨hw, hb⟩ := h
      rw [hw] at h2 hb
      have hdw : (s.drop 3).drop w.length = '\n' :: b := by
        cases hcase : (s.drop 3).drop w.length with
        | nil => rw [hcase] at h2; simp at h2
        | cons x t =>
          rw [hcase] at h2
          simp only [List.take_succ_cons, List.take_zero, List.cons.injEq, and_true] at h2
          subst h2
          have hbt : t = b := by
            rw [hcase] at hb
            simpa using hb
          rw [hbt]
      constructor
      · have hs3 : s = tq ++ s.drop 3 := by
          conv_lhs => rw [← List.take_append_drop 3 s]
          rw [h1]
        have hr : s.drop 3 = w ++ '\n' :: b := by
          conv_lhs => rw [← List.takeWhile_append_dropWhile isWordChar (s.drop 3)]
          rw [hw, ← drop_length_takeWhile isWordChar (s.drop 3), hw, hdw]
        rw [hs3, hr]
      · rw [← hw, List.all_eq_true]
        intro x hx
        exact List.mem_takeWhile_imp hx
    · rw [if_neg h2] at h
      exact absurd h (by simp)
  · rw [if_neg h1] at h
    exact absurd h (by simp)

/-- `firstClose` finds nothing exactly when no triple backtick occurs. -/
theorem firstClose_none_iff : ∀ {b : List Char}, firstClose b = none ↔ noTq b = true := by
  intro b
  induction b with
  | nil => simp [firstClose, noTq]
  | cons c r ih =>
    unfold firstClose noTq
    simp only [List.take_succ_cons]
    by_cases h : c :: r.take 2 = tq
    · simp [h]
    · simp [h, ih]

/-- A found close fits inside the searched string. -/
theorem firstClose_some_bound : ∀ {b : List Char} {j : Nat},
    firstClose b = some j → j + 3 ≤ b.length := by
  intro b
  induction b with
  | nil => intro j h; simp [firstClose] at h
  | cons c r ih =>
    intro j h
    unfold firstClose at h
    split at h
    · next h1 =>
      injection h with h2
      subst h2
      have h3 := congrArg List.length h1
      rw [List.length_take] at h3
      simp only [tq, List.length_cons] at h3
      simp only [List.length_cons]
      omega
    · cases hr : firstClose r with
      | none => rw [hr] at h; simp at h
      | some j2 =>
        rw [hr] at h
        simp only [Option.map_some', Option.some.injEq] at h
        have h4 := ih hr
        simp only [List.length_cons]
        omega

/-- The fence-pattern attempt in terms of the specification's opening
shape and nearest close. -/
theorem matchCodeAt_spec (s : List Char) :
    matchCodeAt s = (openParse s).bind fun p =>
      (firstClose p.2).map fun j => (p.1, p.2.take j, 3 + p.1.length + 1 + j + 3) := by
  simp only [matchCodeAt, openParse]
  split
  · next h1 =>
    split
    · next h2 =>
      cases hcl : firstClose ((s.drop 3).drop ((s.drop 3).takeWhile isWordChar).length |>.drop 1) with
      | none =>
        simp only [List.drop_drop] at hcl
        simp [hcl]
      | some j =>
        simp only [List.drop_drop] at hcl
        simp [hcl]
    · next h2 => simp
  · next h1 => rfl

/-- Decomposition of a successful fence-pattern attempt: the opening
shape, the nearest close, the consumed count, and the scan-resumption
alignment. -/
theorem matchCodeAt_some_parts {s w code : List Char} {k : Nat}
    (h : matchCodeAt s = some (w, code, k)) :
    ∃ b j, openParse s = some (w, b) ∧ firstClose b = some j ∧
      code = b.take j ∧ k = 3 + w.length + 1 + j + 3 ∧
      s.drop k = b.drop (j + 3) ∧ s.length = b.length + 4 + w.length := by
  rw [matchCodeAt_spec] at h
  cases ho : openParse s with
  | none => rw [ho] at h; simp at h
  | some p =>
    obtain ⟨w0, b⟩ := p
    rw [ho] at h
    simp only [Option.some_bind] at h
    cases hcl : firstClose b with
    | none => rw [hcl] at h; simp at h
    | some j =>
      rw [hcl] at h
      simp only [Option.map_some', Option.some.injEq, Prod.mk.injEq] at h
      obtain ⟨hww, hcode, hk⟩ := h
      have hww2 : w = w0 := hww.symm
      subst hww2
      obtain ⟨hstruct, -⟩ := openParse_some ho
      have hlen : s.length = b.length + 4 + w.length := by
        have hL := congrArg List.length hstruct
        simp only [List.length_append, List.length_cons] at hL
        have htq : tq.length = 3 := rfl
        omega
      refine ⟨b, j, rfl, hcl, hcode.symm, hk.symm, ?_, hlen⟩
      have hdropPre : s.drop (3 + w.length + 1) = b := by
        have hs1 : s = (tq ++ w ++ ['\n']) ++ b := by
          rw [hstruct]
          simp [List.append_assoc]
        have hs2 : (tq ++ w ++ ['\n']).length = 3 + w.length + 1 := by
          simp only [List.length_append, List.length_cons, List.length_nil]
          have htq : tq.length = 3 := rfl
          omega
        rw [hs1, ← hs2]
        exact List.drop_left _ _
      calc s.drop k = s.drop ((3 + w.length + 1) + (j + 3)) := by rw [← hk]; congr 1 <;> omega
        _ = (s.drop (3 + w.length + 1)).drop (j + 3) := (List.drop_drop _ _ _).symm
        _ = b.drop (j + 3) := by rw [hdropPre]

/-- The fence scan does not depend on the fuel once the fuel exceeds the
string length. -/
theorem codeSplitAux_fuel_irrel : ∀ (f g : Nat) (s : List Char),
    s.length < f → s.length < g → codeSplitAux f s = codeSplitAux g s := by
  intro f
  induction f with
  | zero => intro g s hf _; exact absurd hf (Nat.not_lt_zero _)
  | succ f ih =>
    intro g s hf hg
    cases g with
    | zero => exact absurd hg (Nat.not_lt_zero _)
    | succ g2 =>
      cases hm : matchCodeAt s with
      | some t =>
        obtain ⟨w, code, k⟩ := t
        obtain ⟨b, j, -, -, -, hk, -, hlen⟩ := matchCodeAt_some_parts hm
        have hdk : (s.drop k).length < f ∧ (s.drop k).length < g2 := by
          rw [List.length_drop]
          omega
        simp only [codeSplitAux, hm, ih g2 (s.drop k) hdk.1 hdk.2]
      | none =>
        cases s with
        | nil => rfl
        | cons c r =>
          have hr : r.length < f ∧ r.length < g2 := by
            simp only [List.length_cons] at hf hg
            omega
          simp only [codeSplitAux, hm, ih g2 r hr.1 hr.2]

/-- The leftmost opening fence leaves room for its body. -/
theorem firstOpen_some_bound : ∀ {s : List Char} {i : Nat} {w b : List Char},
    firstOpen s = some (i, w, b) → b.length + 4 ≤ s.length := by
  intro s
  induction s with
  | nil => intro i w b h; simp [firstOpen] at h
  | cons c r ih =>
    intro i w b h
    unfold firstOpen at h
    cases ho : openParse (c :: r) with
    | some p =>
      obtain ⟨w0, b0⟩ := p
      rw [ho] at h
      simp only [Option.some.injEq, Prod.mk.injEq] at h
      obtain ⟨-, -, hb⟩ := h
      obtain ⟨hstruct, -⟩ := openParse_some ho
      have hL := congrArg List.length hstruct
      simp only [List.length_append, List.length_cons] at hL
      have htq : tq.length = 3 := rfl
      subst hb
      simp only [List.length_cons]
      omega
    | none =>
      rw [ho] at h
      cases hr : firstOpen r with
      | none => rw [hr] at h; simp at h
      | some t =>
        obtain ⟨i2, w2, b2⟩ := t
        rw [hr] at h
        simp only [Option.map_some', Option.some.injEq, Prod.mk.injEq] at h
        obtain ⟨-, -, hb⟩ := h
        have h4 := ih hr
        subst hb
        simp only [List.length_cons]
        omega

/-- The specification's region list does not depend on the fuel once the
fuel exceeds the string length. -/
theorem specRegionsAux_fuel_irrel : ∀ (f g : Nat) (s : List Char),
    s.length < f → s.length < g → specRegionsAux f s = specRegionsAux g s := by
  intro f
  induction f with
  | zero => intro g s hf _; exact absurd hf (Nat.not_lt_zero _)
  | succ f ih =>
    intro g s hf hg
    cases g with
    | zero => exact absurd hg (Nat.not_lt_zero _)
    | succ g2 =>
      cases ho : firstOpen s with
      | none => simp only [specRegionsAux, ho]
      | some t =>
        obtain ⟨i, w, b⟩ := t
        have hb := firstOpen_some_bound ho
        cases hcl : firstClose b with
        | none => simp only [specRegionsAux, ho, hcl]
        | some j =>
          have hj := firstClose_some_bound hcl
          have hdb : (b.drop (j + 3)).length < f ∧ (b.drop (j + 3)).length < g2 := by
            rw [List.length_drop]
            omega
          simp only [specRegionsAux, ho, hcl, ih g2 (b.drop (j + 3)) hdb.1 hdb.2]

/-- A list headed by a character other than a backtick does not begin with
the triple backtick. -/
theorem take3_ne_tq {x : Char} {l : List Char} (h : x ≠ btick) : (x :: l).take 3 ≠ tq := by
  intro he
  have hh := congrArg List.head? he
  simp only [List.take_succ_cons, List.head?_cons] at hh
  exact h (by simpa [tq] using hh)

/-- Taking one element determines the head. -/
theorem head?_of_take1 {L : List Char} {x : Char} (h : L.take 1 = [x]) : L.head? = some x := by
  cases L with
  | nil => simp at h
  | cons y t =>
    simp only [List.take_succ_cons, List.take_zero, List.cons.injEq, and_true] at h
    rw [h]
    rfl

/-- `noTq` extends along a cons whose window is not the triple backtick. -/
theorem noTq_cons_of {x : Char} {l : List Char} (h : noTq l = true)
    (hx : (x :: l).take 3 ≠ tq) : noTq (x :: l) = true := by
  rw [List.take_succ_cons] at hx
  unfold noTq
  simp [hx, h]

/-- A word run followed by a newline and a backtick-free tail is
backtick-free. -/
theorem noTq_word_append : ∀ (w b : List Char), w.all isWordChar = true → noTq b = true →
    noTq (w ++ '\n' :: b) = true := by
  intro w
  induction w with
  | nil =>
    intro b _ hb
    exact noTq_cons_of hb (take3_ne_tq (by decide))
  | cons a w2 ih =>
    intro b hw hb
    rw [List.all_cons, Bool.and_eq_true] at hw
    have ha : a ≠ btick := fun hh => absurd (hh ▸ hw.1) (by decide)
    exact noTq_cons_of (ih b hw.2 hb) (take3_ne_tq ha)

/-- The head of a word run followed by a newline is never a backtick. -/
theorem head_word_newline_ne {w b : List Char} (hw : w.all isWordChar = true) :
    (w ++ '\n' :: b).head? ≠ some btick := by
  cases w with
  | nil =>
    intro hh
    simp at hh
    exact absurd hh (by decide)
  | cons a w2 =>
    rw [List.all_cons, Bool.and_eq_true] at hw
    intro hh
    simp at hh
    exact absurd (hh ▸ hw.1) (by decide)

/-- After an opening fence whose body has no close, the tail of the
message is entirely backtick-free. -/
theorem noTq_after_open {c : Char} {r w b : List Char}
    (hstruct : c :: r = tq ++ (w ++ '\n' :: b)) (hw : w.all isWordChar = true)
    (hb : noTq b = true) : noTq r = true := by
  have hr : r = btick :: btick :: (w ++ '\n' :: b) := by
    have h2 : c :: r = btick :: btick :: btick :: (w ++ '\n' :: b) := hstruct
    injection h2 with h3 h4
  rw [hr]
  have hhead := head_word_newline_ne (b := b) hw
  have hq3 : noTq (w ++ '\n' :: b) = true := noTq_word_append w b hw hb
  have hq2 : noTq (btick :: (w ++ '\n' :: b)) = true := by
    refine noTq_cons_of hq3 ?_
    intro he
    rw [List.take_succ_cons] at he
    have he2 : (w ++ '\n' :: b).take 2 = [btick, btick] := by
      have := congrArg List.tail he
      simpa [tq] using this
    have he3 : (w ++ '\n' :: b).take 1 = [btick] := by
      have := congrArg (List.take 1) he2
      simpa [List.take_take] using this
    exact hhead (head?_of_take1 he3)
  refine noTq_cons_of hq2 ?_
  intro he
  rw [List.take_succ_cons, List.take_succ_cons] at he
  have he3 : (w ++ '\n' :: b).take 1 = [btick] := by
    have := congrArg (List.tail ∘ List.tail) he
    simpa [tq] using this
  exact hhead (head?_of_take1 he3)

/-- A failed attempt at the head makes the scan step one character. -/
theorem codeSplitAux_step_none {fuel : Nat} {c : Char} {r : List Char}
    (hm : matchCodeAt (c :: r) = none) :
    (codeSplitAux (fuel + 1) (c :: r)).2 = (codeSplitAux fuel r).2 := by
  simp only [codeSplitAux, hm]
  cases hres : codeSplitAux fuel r with
  | mk segs ms => cases segs <;> rfl

/-- Stepping over a character that opens no fence does not change the
specification's region list. -/
theorem specRegionsAux_cons_shift : ∀ {f g : Nat} {c : Char} {r : List Char},
    openParse (c :: r) = none → (c :: r).length < f → r.length < g →
    specRegionsAux f (c :: r) = specRegionsAux g r := by
  intro f g c r ho hf hg
  cases f with
  | zero => exact absurd hf (Nat.not_lt_zero _)
  | succ f2 =>
    cases g with
    | zero => exact absurd hg (Nat.not_lt_zero _)
    | succ g2 =>
      simp only [List.length_cons] at hf
      cases hr : firstOpen r with
      | none =>
        have hfo : firstOpen (c :: r) = none := by simp [firstOpen, ho, hr]
        simp only [specRegionsAux, hfo, hr]
      | some t =>
        obtain ⟨i, w, b⟩ := t
        have hfo : firstOpen (c :: r) = some (i + 1, w, b) := by simp [firstOpen, ho, hr]
        have hb := firstOpen_some_bound hr
        cases hcl : firstClose b with
        | none => simp only [specRegionsAux, hfo, hr, hcl]
        | some j =>
          have hj := firstClose_some_bound hcl
          simp only [specRegionsAux, hfo, hr, hcl]
          rw [specRegionsAux_fuel_irrel f2 g2 (b.drop (j + 3))
            (by rw [List.length_drop]; omega) (by rw [List.length_drop]; omega)]

/-- The fence scan's match list equals the specification's region list:
step-scanning with per-position attempts finds exactly the leftmost
opening fences with their nearest closes. -/
theorem codeSplit_matches_spec : ∀ (n : Nat) (s : List Char), s.length ≤ n →
    (codeSplit s).2 = specFenceRegions s := by
  intro n
  induction n with
  | zero =>
    intro s h
    have hnil : s = [] := List.length_eq_zero.mp (Nat.le_zero.mp h)
    subst hnil
    rfl
  | succ n ih =>
    intro s hle
    cases hm : matchCodeAt s with
    | some t =>
      obtain ⟨w, code, k⟩ := t
      obtain ⟨b, j, ho, hcl, hcode, hk, hdropEq, hlen⟩ := matchCodeAt_some_parts hm
      have hj := firstClose_some_bound hcl
      have h1 : (codeSplit s).2 = (w, code) :: (codeSplitAux s.length (s.drop k)).2 := by
        show (codeSplitAux (s.length + 1) s).2 = _
        simp only [codeSplitAux, hm]
      have h2 : codeSplitAux s.length (s.drop k) = codeSplit (s.drop k) := by
        apply codeSplitAux_fuel_irrel <;> rw [List.length_drop] <;> omega
      have hfo : firstOpen s = some (0, w, b) := by
        cases s with
        | nil => simp [openParse] at ho
        | cons c r => simp [firstOpen, ho]
      have h3 : specFenceRegions s = (w, b.take j) :: specRegionsAux s.length (b.drop (j + 3)) := by
        show specRegionsAux (s.length + 1) s = _
        simp only [specRegionsAux, hfo, hcl]
      have h4 : specRegionsAux s.length (b.drop (j + 3)) = specFenceRegions (b.drop (j + 3)) := by
        apply specRegionsAux_fuel_irrel <;> rw [List.length_drop] <;> omega
      rw [h1, h2, hdropEq, hcode, h3, h4]
      rw [ih (b.drop (j + 3)) (by rw [List.length_drop]; omega)]
    | none =>
      cases s with
      | nil => rfl
      | cons c r =>
        have hrn : r.length ≤ n := by
          simp only [List.length_cons] at hle
          omega
        have h1 : (codeSplit (c :: r)).2 = (codeSplit r).2 := by
          show (codeSplitAux ((c :: r).length + 1) (c :: r)).2 = _
          rw [codeSplitAux_step_none hm]
          rfl
        cases ho : openParse (c :: r) with
        | none =>
          have h2 : specFenceRegions (c :: r) = specFenceRegions r := by
            show specRegionsAux ((c :: r).length + 1) (c :: r) = specRegionsAux (r.length + 1) r
            exact specRegionsAux_cons_shift ho (by simp) (by omega)
          rw [h1, h2, ih r hrn]
        | some p =>
          obtain ⟨w, b⟩ := p
          have hcl : firstClose b = none := by
            have hspec := matchCodeAt_spec (c :: r)
            rw [hm, ho] at hspec
            simp only [Option.some_bind] at hspec
            cases hcl2 : firstClose b with
            | none => rfl
            | some j => rw [hcl2] at hspec; simp at hspec
          have hfo : firstOpen (c :: r) = some (0, w, b) := by simp [firstOpen, ho]
          have h3 : specFenceRegions (c :: r) = [] := by
            show specRegionsAux ((c :: r).length + 1) (c :: r) = []
            simp only [specRegionsAux, hfo, hcl]
          obtain ⟨hstruct, hw⟩ := openParse_some ho
          have hnb : noTq b = true := firstClose_none_iff.mp hcl
          have hnr : noTq r = true := noTq_after_open hstruct hw hnb
          have h4 : (codeSplit r).2 = [] := by
            show (codeSplitAux (r.length + 1) r).2 = []
            rw [codeSplitAux_of_noTq _ hnr]
          rw [h1, h3, h4]

/-- The fence scan equals the specification's region list (wrapper). -/
theorem codeSplit_eq_specRegions (s : List Char) : (codeSplit s).2 = specFenceRegions s :=
  codeSplit_matches_spec s.length s le_rfl

/-- Counterexample to claim C4 as stated: in `exMsgInlineFence` exactly
one line begins with three backticks (the final lone closer), so no region
is delimited by an opening *line* starting with three backticks together
with a later closing line; yet `format_message` extracts one snippet,
because the regex requires no line anchoring. -/
theorem c4_cex :
    ((pySplitOn '\n' exMsgInlineFence).filter fun l => decide (l.take 3 = tq)).length = 1 ∧
    (format_message exMsgInlineFence).codes = [("print(1)".toList, "python".toList)] := by
  decide

/-- Claim C4, amended: `format_message` extracts a CodeSnippet exactly for
each region delimited by three consecutive backticks *anywhere* in the
text (not necessarily at a line start), optionally followed immediately
(no space) by a word-character language token and then a newline, and
closed by the nearest following three consecutive backticks (not
necessarily on a line of their own); regions are taken leftmost first, so
multiple fenced blocks yield separate snippets in source order. -/
theorem c4_amended_regions (msg : List Char) :
    (format_message msg).codes =
      (specFenceRegions msg).map fun reg => (pyStrip reg.2, pyLangOf reg.1) := by
  rw [format_message_codes, codeSplit_eq_specRegions]

end BQC
